import Mathlib

/-!
Shallow embedding of `src/spi_decoder.py` (an SPI protocol decoder).

Python floats are modelled as rationals (`ℚ`): the program only compares
samples against thresholds, and every comparison in the claims is exact.
Python's `None` value (the undetermined hysteresis state) is modelled with
`Option ℕ`: `none` is `None`, `some b` is the integer `b`.  Python's
`raise Exception(...)` is modelled with `Except String`.
-/

namespace SpiDecoder

/-- First iteration of the loop in `convert_analog_to_digital`
(`first = True` branch): `previous_data` starts as `None`, becomes `1` if
`value >= threshold_high`, `0` if `value <= threshold_low`, and the (possibly
still `None`) state is appended. -/
def a2dFirst (threshold_low threshold_high value : ℚ) : Option ℕ :=
  if value ≥ threshold_high then some 1
  else if value ≤ threshold_low then some 0
  else none

/-- Later iterations of the loop in `convert_analog_to_digital`:
`if value >= threshold_high and 0 == previous_data: previous_data = 1`,
`elif value <= threshold_low and 1 == previous_data: previous_data = 0`,
else keep `previous_data`.  In Python `0 == None` and `1 == None` are both
`False`, which the `prev = some _` equalities capture. -/
def a2dStep (threshold_low threshold_high : ℚ) (prev : Option ℕ) (value : ℚ) :
    Option ℕ :=
  if value ≥ threshold_high ∧ prev = some 0 then some 1
  else if value ≤ threshold_low ∧ prev = some 1 then some 0
  else prev

/-- The tail of the loop in `convert_analog_to_digital` after the first
iteration: threads `previous_data` and appends the updated state for each
sample. -/
def a2dLoop (threshold_low threshold_high : ℚ) (prev : Option ℕ) :
    List ℚ → List (Option ℕ)
  | [] => []
  | value :: rest =>
    let p := a2dStep threshold_low threshold_high prev value
    p :: a2dLoop threshold_low threshold_high p rest

/-- `convert_analog_to_digital(data, threshold_low, threshold_high)`
(src/spi_decoder.py lines 22-55): hysteresis digitisation with an initially
undetermined (`None`) state. -/
def convert_analog_to_digital (data : List ℚ)
    (threshold_low threshold_high : ℚ) : List (Option ℕ) :=
  match data with
  | [] => []
  | value :: rest =>
    let p := a2dFirst threshold_low threshold_high value
    p :: a2dLoop threshold_low threshold_high p rest

/-- `latch_data_on_sclk_to_bitstream(sclk_digital, data_digital, rising_edge)`
(src/spi_decoder.py lines 57-83): raises when lengths differ, otherwise for
`i in range(1, len(sclk_digital))` appends `data_digital[i]` whenever
`sclk_digital[i] == 1 and sclk_digital[i-1] == 0` (rising) or
`sclk_digital[i] == 0 and sclk_digital[i-1] == 1` (falling). -/
def latch_data_on_sclk_to_bitstream (sclk_digital data_digital : List ℕ)
    (rising_edge : Bool) : Except String (List ℕ) :=
  if sclk_digital.length ≠ data_digital.length then
    Except.error "Lengths must match!"
  else
    Except.ok (((List.range sclk_digital.length).drop 1).filterMap fun i =>
      if rising_edge then
        if sclk_digital.getD i 0 = 1 ∧ sclk_digital.getD (i - 1) 0 = 0 then
          some (data_digital.getD i 0)
        else none
      else
        if sclk_digital.getD i 0 = 0 ∧ sclk_digital.getD (i - 1) 0 = 1 then
          some (data_digital.getD i 0)
        else none)

/-- Python's `hex(n)` for a nonnegative integer: `0x` followed by lowercase
hexadecimal digits. -/
def hexStr (n : ℕ) : String :=
  "0x" ++ String.mk (Nat.toDigits 16 n)

/-- The inner accumulation of `decode_bitstream`:
`number = 0; for j, bit in enumerate(ordered_group): number |= (bit << j)`. -/
def groupNumber (ordered_group : List ℕ) : ℕ :=
  ordered_group.enum.foldl (fun number jb => number ||| (jb.2 <<< jb.1)) 0

/-- `decode_bitstream(bitstream, group_by, MSB_first, hexadecimal)`
(src/spi_decoder.py lines 85-110).  `total_length % group_by` raises
`ZeroDivisionError` in Python when `group_by == 0`, modelled by the first
branch; `int(total_length / group_by)` is exact integer division in the
remaining cases.  The slice `bitstream[i*group_by : group_by+i*group_by]`
is `(bitstream.drop (i * group_by)).take group_by`, and `group[::-1]` is
`List.reverse`.  Elements are `Sum.inr (hexStr n)` when `hexadecimal`
(Python appends `hex(number)`, a string) and `Sum.inl n` otherwise. -/
def decode_bitstream (bitstream : List ℕ) (group_by : ℕ)
    (MSB_first hexadecimal : Bool) : Except String (List (ℕ ⊕ String)) :=
  if group_by = 0 then
    Except.error "integer division or modulo by zero"
  else if bitstream.length % group_by ≠ 0 then
    Except.error "Cannot group bits in the stream without leaving any bit out!"
  else
    let groups_count := bitstream.length / group_by
    Except.ok ((List.range groups_count).map fun i =>
      let group := (bitstream.drop (i * group_by)).take group_by
      let ordered_group := if MSB_first then group.reverse else group
      let number := groupNumber ordered_group
      if hexadecimal then Sum.inr (hexStr number) else Sum.inl number)

/-! ### Specification-side definitions (from the claims' words) -/

/-- Indices `i ∈ [1, len)` at which a qualifying edge occurs, per the spec:
rising means `clock[i] == 1 ∧ clock[i-1] == 0`, falling the mirror image. -/
def qualifyingEdges (clock : List ℕ) (rising_edge : Bool) : List ℕ :=
  ((List.range clock.length).drop 1).filter fun i =>
    if rising_edge then clock.getD i 0 = 1 ∧ clock.getD (i - 1) 0 = 0
    else clock.getD i 0 = 0 ∧ clock.getD (i - 1) 0 = 1

/-- Partition of a list into consecutive non-overlapping chunks of `g`
elements, in order. -/
def chunksOf (g : ℕ) : List α → List (List α)
  | [] => []
  | a :: l =>
    if g = 0 then []
    else (a :: l).take g :: chunksOf g ((a :: l).drop g)
termination_by l => l.length
decreasing_by
  simp only [List.length_drop, List.length_cons]
  omega

/-- Value of a bit list taken least-significant-first: `Σ bits[j] * 2^j`. -/
def bitsValueLE : List ℕ → ℕ
  | [] => 0
  | b :: bs => b + 2 * bitsValueLE bs

/-- The claim's per-chunk value: reverse the chunk when `MSB_first` so its
first element is most significant, then `value = OR over j of (bit_j << j)`,
i.e. the least-significant-first positional value. -/
def chunkValue (MSB_first : Bool) (chunk : List ℕ) : ℕ :=
  bitsValueLE (if MSB_first then chunk.reverse else chunk)

/-- Re-expansion of an integer into `g` bits: least-significant-first when
`MSB_first` is false, most-significant-first when true. -/
def expandBits (n g : ℕ) (MSB_first : Bool) : List ℕ :=
  let lsb := (List.range g).map fun j => n / 2 ^ j % 2
  if MSB_first then lsb.reverse else lsb

/-! ### Helper lemmas -/

lemma filterMap_ite_eq_map_filter {α β : Type} (p : α → Prop) [DecidablePred p]
    (f : α → β) (l : List α) :
    (l.filterMap fun a => if p a then some (f a) else none) =
      (l.filter fun a => p a).map f := by
  induction l with
  | nil => rfl
  | cons a l ih =>
    by_cases h : p a <;>
      simp [List.filterMap_cons, List.filter_cons, h, ih]

lemma latch_eq_map_edges (sclk_digital data_digital : List ℕ)
    (rising_edge : Bool) (h : sclk_digital.length = data_digital.length) :
    latch_data_on_sclk_to_bitstream sclk_digital data_digital rising_edge =
      Except.ok ((qualifyingEdges sclk_digital rising_edge).map fun i =>
        data_digital.getD i 0) := by
  unfold latch_data_on_sclk_to_bitstream qualifyingEdges
  rw [if_neg (by omega)]
  cases rising_edge with
  | false =>
    simp only [Bool.false_eq_true, if_false]
    rw [filterMap_ite_eq_map_filter
      (fun i => sclk_digital.getD i 0 = 0 ∧ sclk_digital.getD (i - 1) 0 = 1)
      (fun i => data_digital.getD i 0)]
  | true =>
    simp only [if_true]
    rw [filterMap_ite_eq_map_filter
      (fun i => sclk_digital.getD i 0 = 1 ∧ sclk_digital.getD (i - 1) 0 = 0)
      (fun i => data_digital.getD i 0)]

/-! ### Claims about `latch_data_on_sclk_to_bitstream` -/

/-- C1: for equal-length binary clock and data sequences and either edge
direction, the latch returns exactly the values `data[i]` at the qualifying
edge indices `i ∈ [1, len)`, in increasing index order, and the output
length is the number of qualifying edges. -/
theorem latch_values_are_data_at_qualifying_edges
    (sclk_digital data_digital : List ℕ) (rising_edge : Bool)
    (h : sclk_digital.length = data_digital.length) :
    latch_data_on_sclk_to_bitstream sclk_digital data_digital rising_edge =
      Except.ok ((qualifyingEdges sclk_digital rising_edge).map fun i =>
        data_digital.getD i 0) ∧
    ∀ bits, latch_data_on_sclk_to_bitstream sclk_digital data_digital
        rising_edge = Except.ok bits →
      bits.length = (qualifyingEdges sclk_digital rising_edge).length := by
  refine ⟨latch_eq_map_edges _ _ _ h, fun bits hb => ?_⟩
  rw [latch_eq_map_edges _ _ _ h] at hb
  cases hb
  exact List.length_map _ _

/-- C1 witness: the claim's concrete scenario, rising edges at indices 2
and 6. -/
theorem latch_values_are_data_at_qualifying_edges_witness :
    latch_data_on_sclk_to_bitstream [0, 0, 1, 1, 0, 0, 1, 1]
        [0, 1, 1, 0, 0, 1, 1, 0] true = Except.ok [1, 1] ∧
    qualifyingEdges [0, 0, 1, 1, 0, 0, 1, 1] true = [2, 6] := by
  have h := latch_values_are_data_at_qualifying_edges
    [0, 0, 1, 1, 0, 0, 1, 1] [0, 1, 1, 0, 0, 1, 1, 0] true (by decide)
  exact ⟨by rw [h.1]; rfl, by decide⟩

/-- C5: the latch raises the length-mismatch error exactly when the lengths
differ, and returns a bit stream (raising nothing) when they are equal. -/
theorem latch_length_mismatch_error (sclk_digital data_digital : List ℕ)
    (rising_edge : Bool) :
    (latch_data_on_sclk_to_bitstream sclk_digital data_digital rising_edge =
        Except.error "Lengths must match!" ↔
      sclk_digital.length ≠ data_digital.length) ∧
    (sclk_digital.length = data_digital.length →
      ∃ bits, latch_data_on_sclk_to_bitstream sclk_digital data_digital
        rising_edge = Except.ok bits) := by
  unfold latch_data_on_sclk_to_bitstream
  by_cases h : sclk_digital.length = data_digital.length
  · rw [if_neg (by omega)]
    refine ⟨⟨fun hc => Except.noConfusion hc, fun hc => absurd h hc⟩,
      fun _ => ⟨_, rfl⟩⟩
  · rw [if_pos h]
    refine ⟨⟨fun _ => h, fun _ => rfl⟩, fun hc => absurd hc h⟩

/-- C5 witness: mismatched lengths yield the error; equal lengths yield a
result. -/
theorem latch_length_mismatch_error_witness :
    latch_data_on_sclk_to_bitstream [0, 1] [0] true =
      Except.error "Lengths must match!" ∧
    ∃ bits, latch_data_on_sclk_to_bitstream [0, 1] [0, 1] true =
      Except.ok bits :=
  ⟨(latch_length_mismatch_error [0, 1] [0] true).1.mpr (by decide),
   (latch_length_mismatch_error [0, 1] [0, 1] true).2 (by decide)⟩

/-- C8: for equal-length sequences, the latched bit stream has length at
most `len(clock) - 1`. -/
theorem latch_length_le_pred (sclk_digital data_digital : List ℕ)
    (rising_edge : Bool)
    (h : sclk_digital.length = data_digital.length) :
    ∀ bits, latch_data_on_sclk_to_bitstream sclk_digital data_digital
        rising_edge = Except.ok bits →
      bits.length ≤ sclk_digital.length - 1 := by
  intro bits hb
  rw [latch_eq_map_edges _ _ _ h] at hb
  cases hb
  rw [List.length_map]
  calc (qualifyingEdges sclk_digital rising_edge).length
      ≤ ((List.range sclk_digital.length).drop 1).length :=
        List.length_filter_le _ _
    _ = sclk_digital.length - 1 := by
        rw [List.length_drop, List.length_range]

/-- C8 witness: the concrete scenario from the spec latches `[1, 1]`, and
2 ≤ 8 - 1. -/
theorem latch_length_le_pred_witness :
    ([1, 1] : List ℕ).length ≤
      ([0, 0, 1, 1, 0, 0, 1, 1] : List ℕ).length - 1 :=
  latch_length_le_pred [0, 0, 1, 1, 0, 0, 1, 1] [0, 1, 1, 0, 0, 1, 1, 0]
    true (by decide) [1, 1] rfl

/-! ### Lemmas about `convert_analog_to_digital` -/

lemma a2dLoop_length (tl th : ℚ) (prev : Option ℕ) (l : List ℚ) :
    (a2dLoop tl th prev l).length = l.length := by
  induction l generalizing prev with
  | nil => rfl
  | cons v rest ih => simp [a2dLoop, ih]

lemma convert_length (data : List ℚ) (tl th : ℚ) :
    (convert_analog_to_digital data tl th).length = data.length := by
  cases data with
  | nil => rfl
  | cons v rest => simp [convert_analog_to_digital, a2dLoop_length]

lemma a2dLoop_getD_zero (tl th : ℚ) (prev : Option ℕ) (v : ℚ) (l : List ℚ) :
    (a2dLoop tl th prev (v :: l)).getD 0 none = a2dStep tl th prev v := by
  simp [a2dLoop]

lemma a2dLoop_getD_succ (tl th : ℚ) (prev : Option ℕ) (l : List ℚ) (i : ℕ)
    (hi : i + 1 < l.length) :
    (a2dLoop tl th prev l).getD (i + 1) none =
      a2dStep tl th ((a2dLoop tl th prev l).getD i none) (l.getD (i + 1) 0) := by
  induction l generalizing prev i with
  | nil => simp at hi
  | cons v rest ih =>
    cases i with
    | zero =>
      cases rest with
      | nil => simp at hi
      | cons w ws => simp [a2dLoop]
    | succ i =>
      have hi' : i + 1 < rest.length := by
        simpa [Nat.succ_lt_succ_iff] using hi
      simpa [a2dLoop] using ih (a2dStep tl th prev v) i hi'

lemma convert_getD_succ (data : List ℚ) (tl th : ℚ) (i : ℕ)
    (hi : i + 1 < data.length) :
    (convert_analog_to_digital data tl th).getD (i + 1) none =
      a2dStep tl th ((convert_analog_to_digital data tl th).getD i none)
        (data.getD (i + 1) 0) := by
  cases data with
  | nil => simp at hi
  | cons v rest =>
    cases i with
    | zero =>
      cases rest with
      | nil => simp at hi
      | cons w ws => simp [convert_analog_to_digital, a2dLoop]
    | succ i =>
      have hi' : i + 1 < rest.length := by
        simpa [Nat.succ_lt_succ_iff] using hi
      simpa [convert_analog_to_digital] using
        a2dLoop_getD_succ tl th (a2dFirst tl th v) rest i hi'

lemma a2dStep_of_one (tl th v : ℚ) (hv : ¬ v ≤ tl) :
    a2dStep tl th (some 1) v = some 1 := by
  simp [a2dStep, hv]

lemma a2dStep_of_zero (tl th v : ℚ) (hv : ¬ th ≤ v) :
    a2dStep tl th (some 0) v = some 0 := by
  simp [a2dStep, ge_iff_le, hv]

lemma a2dStep_deadband (tl th v : ℚ) (p : Option ℕ) (h1 : tl < v)
    (h2 : v < th) : a2dStep tl th p v = p := by
  simp [a2dStep, ge_iff_le, not_le.mpr h1, not_le.mpr h2]

lemma a2dStep_none (tl th v : ℚ) : a2dStep tl th none v = none := by
  simp [a2dStep]

lemma a2dLoop_none (tl th : ℚ) (l : List ℚ) :
    a2dLoop tl th none l = List.replicate l.length none := by
  induction l with
  | nil => rfl
  | cons v rest ih => simp [a2dLoop, a2dStep_none, ih, List.replicate_succ]

/-! ### Claims about `convert_analog_to_digital` -/

/-- C2: the digitised state changes only by crossing the opposite
threshold: from state 1 it stays 1 unless the next sample is `≤
threshold_low`; from state 0 it stays 0 unless the next sample is `≥
threshold_high`; samples strictly inside the dead band never change the
state.  The claim's concrete scenario is the last conjunct. -/
theorem hysteresis_deadband_stability (data : List ℚ)
    (threshold_low threshold_high : ℚ)
    (hth : threshold_low ≤ threshold_high) (i : ℕ)
    (hi : i + 1 < data.length) :
    ((convert_analog_to_digital data threshold_low threshold_high).getD i
          none = some 1 →
      ¬ data.getD (i + 1) 0 ≤ threshold_low →
      (convert_analog_to_digital data threshold_low threshold_high).getD
        (i + 1) none = some 1) ∧
    ((convert_analog_to_digital data threshold_low threshold_high).getD i
          none = some 0 →
      ¬ threshold_high ≤ data.getD (i + 1) 0 →
      (convert_analog_to_digital data threshold_low threshold_high).getD
        (i + 1) none = some 0) ∧
    (threshold_low < data.getD (i + 1) 0 →
      data.getD (i + 1) 0 < threshold_high →
      (convert_analog_to_digital data threshold_low threshold_high).getD
          (i + 1) none =
        (convert_analog_to_digital data threshold_low threshold_high).getD i
          none) ∧
    convert_analog_to_digital [0, 1.5, 2.5, 1, 0.5] 0.8 2 =
      [some 0, some 0, some 1, some 1, some 0] := by
  rw [convert_getD_succ data threshold_low threshold_high i hi]
  refine ⟨fun h1 h2 => ?_, fun h1 h2 => ?_, fun h1 h2 => ?_, ?_⟩
  · rw [h1]; exact a2dStep_of_one _ _ _ h2
  · rw [h1]; exact a2dStep_of_zero _ _ _ h2
  · exact a2dStep_deadband _ _ _ _ h1 h2
  · norm_num [convert_analog_to_digital, a2dFirst, a2dLoop, a2dStep]

/-- C2 witness: at index 2 of the concrete scenario the state is 1 and
sample 3 (value 1.0) is in the dead band, so the state stays 1. -/
theorem hysteresis_deadband_stability_witness :
    (convert_analog_to_digital [0, 1.5, 2.5, 1, 0.5] 0.8 2).getD 3 none =
      (convert_analog_to_digital [0, 1.5, 2.5, 1, 0.5] 0.8 2).getD 2 none := by
  have h := hysteresis_deadband_stability [0, 1.5, 2.5, 1, 0.5] 0.8 2
    (by norm_num) 2 (by norm_num)
  exact h.2.2.1 (by norm_num) (by norm_num)

/-- C9: when the first sample lies strictly inside the dead band, the
initial state is the undefined marker `none` and it is absorbing: every
output element is `none`, whatever the later samples are. -/
theorem undetermined_initial_state_is_absorbing (v : ℚ) (rest : List ℚ)
    (threshold_low threshold_high : ℚ)
    (hth : threshold_low ≤ threshold_high) (h1 : threshold_low < v)
    (h2 : v < threshold_high) :
    convert_analog_to_digital (v :: rest) threshold_low threshold_high =
      List.replicate (rest.length + 1) none := by
  have hfirst : a2dFirst threshold_low threshold_high v = none := by
    simp [a2dFirst, ge_iff_le, not_le.mpr h1, not_le.mpr h2]
  simp [convert_analog_to_digital, hfirst, a2dLoop_none,
    List.replicate_succ]

/-- C9 witness: first sample 1.0 is strictly between 0.8 and 2.0, so all
outputs are `none` even though later samples cross both thresholds. -/
theorem undetermined_initial_state_is_absorbing_witness :
    convert_analog_to_digital [1, 3, 0.1] 0.8 2 = List.replicate 3 none := by
  have h := undetermined_initial_state_is_absorbing 1 [3, 0.1] 0.8 2
    (by norm_num) (by norm_num) (by norm_num)
  simpa using h

/-- C6 counterexample: with `threshold_low = 0.8 ≤ 2 = threshold_high`, the
input `[1]` produces `[none]` — an element that is neither 0 nor 1, so the
output is not a sequence of binary values. -/
theorem digital_output_binary_counterexample :
    (0.8 : ℚ) ≤ 2 ∧
    convert_analog_to_digital [1] 0.8 2 = [none] ∧
    ¬ ∀ x ∈ convert_analog_to_digital [1] 0.8 2,
        x = some 0 ∨ x = some 1 := by
  refine ⟨by norm_num, ?_, ?_⟩
  · norm_num [convert_analog_to_digital, a2dFirst, a2dLoop]
  · intro hall
    have h := hall none (by norm_num [convert_analog_to_digital, a2dFirst,
      a2dLoop])
    simp at h

/-- C6 (amended): the output always has the same length as the input, and
when the input is empty or its first sample meets one of the thresholds,
every element is a binary value 0 or 1. -/
theorem digital_output_length_and_binary (data : List ℚ)
    (threshold_low threshold_high : ℚ)
    (hth : threshold_low ≤ threshold_high) :
    (convert_analog_to_digital data threshold_low threshold_high).length =
      data.length ∧
    ((data = [] ∨ data.getD 0 0 ≤ threshold_low ∨
        threshold_high ≤ data.getD 0 0) →
      ∀ x ∈ convert_analog_to_digital data threshold_low threshold_high,
        x = some 0 ∨ x = some 1) := by
  refine ⟨convert_length data threshold_low threshold_high, fun hd => ?_⟩
  cases data with
  | nil => simp [convert_analog_to_digital]
  | cons v rest =>
    have hfirst : a2dFirst threshold_low threshold_high v = some 0 ∨
        a2dFirst threshold_low threshold_high v = some 1 := by
      unfold a2dFirst
      rcases hd with hd | hd | hd
      · exact absurd hd (by simp)
      · simp only [List.getD_cons_zero] at hd
        by_cases hv : v ≥ threshold_high
        · exact Or.inr (if_pos hv)
        · exact Or.inl (by rw [if_neg hv, if_pos hd])
      · simp only [List.getD_cons_zero] at hd
        exact Or.inr (if_pos hd)
    have hstep : ∀ (p : Option ℕ) (w : ℚ), p = some 0 ∨ p = some 1 →
        a2dStep threshold_low threshold_high p w = some 0 ∨
        a2dStep threshold_low threshold_high p w = some 1 := by
      intro p w hp
      unfold a2dStep
      split_ifs with hc1 hc2
      · exact Or.inr rfl
      · exact Or.inl rfl
      · exact hp
    have hloop : ∀ (l : List ℚ) (p : Option ℕ), p = some 0 ∨ p = some 1 →
        ∀ x ∈ a2dLoop threshold_low threshold_high p l,
          x = some 0 ∨ x = some 1 := by
      intro l
      induction l with
      | nil => intro p _ x hx; simp [a2dLoop] at hx
      | cons w ws ih =>
        intro p hp x hx
        simp only [a2dLoop, List.mem_cons] at hx
        rcases hx with hx | hx
        · subst hx
          exact hstep p w hp
        · exact ih _ (hstep p w hp) x hx
    intro x hx
    simp only [convert_analog_to_digital, List.mem_cons] at hx
    rcases hx with hx | hx
    · subst hx
      exact hfirst
    · exact hloop rest _ hfirst x hx

/-- C6 (amended) witness: on the concrete scenario the output has length 5
and every element is 0 or 1. -/
theorem digital_output_length_and_binary_witness :
    (convert_analog_to_digital [0, 1.5, 2.5, 1, 0.5] 0.8 2).length = 5 ∧
    ∀ x ∈ convert_analog_to_digital [0, 1.5, 2.5, 1, 0.5] 0.8 2,
      x = some 0 ∨ x = some 1 := by
  have h := digital_output_length_and_binary [0, 1.5, 2.5, 1, 0.5] 0.8 2
    (by norm_num)
  exact ⟨by rw [h.1]; rfl, h.2 (by norm_num)⟩

/-! ### Lemmas about `decode_bitstream` -/

lemma lor_two_pow_of_lt {acc k : ℕ} (h : acc < 2 ^ k) :
    acc ||| 2 ^ k = acc + 2 ^ k := by
  apply Nat.eq_of_testBit_eq
  intro i
  rcases lt_trichotomy i k with hik | hik | hik
  · rw [Nat.testBit_lor, Nat.testBit_two_pow_of_ne (by omega),
      Bool.or_false, Nat.add_comm, Nat.testBit_two_pow_add_gt hik]
  · subst hik
    rw [Nat.testBit_lor, Nat.testBit_two_pow_self, Bool.or_true,
      Nat.add_comm, Nat.testBit_two_pow_add_eq, Nat.testBit_lt_two_pow h]
    rfl
  · have hacc_i : acc < 2 ^ i :=
      h.trans_le (Nat.pow_le_pow_right (by norm_num) hik.le)
    have hsum : acc + 2 ^ k < 2 ^ i := by
      have h1 : acc + 2 ^ k < 2 ^ (k + 1) := by
        rw [pow_succ]; omega
      exact h1.trans_le (Nat.pow_le_pow_right (by norm_num) (by omega))
    rw [Nat.testBit_lor, Nat.testBit_two_pow_of_ne (by omega),
      Bool.or_false, Nat.testBit_lt_two_pow hacc_i,
      Nat.testBit_lt_two_pow hsum]

lemma bitsValueLE_lt (l : List ℕ) (hl : ∀ b ∈ l, b ≤ 1) :
    bitsValueLE l < 2 ^ l.length := by
  induction l with
  | nil => simp [bitsValueLE]
  | cons b bs ih =>
    have hb : b ≤ 1 := hl b (List.mem_cons_self b _)
    have hbs := ih fun x hx => hl x (List.mem_cons_of_mem _ hx)
    simp only [bitsValueLE, List.length_cons, pow_succ]
    omega

lemma foldl_lor_enumFrom (l : List ℕ) (hl : ∀ b ∈ l, b ≤ 1) :
    ∀ (k acc : ℕ), acc < 2 ^ k →
      (l.enumFrom k).foldl (fun number jb => number ||| (jb.2 <<< jb.1))
          acc =
        acc + 2 ^ k * bitsValueLE l := by
  induction l with
  | nil => intro k acc _; simp [bitsValueLE]
  | cons b bs ih =>
    intro k acc hacc
    have hb : b ≤ 1 := hl b (List.mem_cons_self b _)
    have hbs : ∀ x ∈ bs, x ≤ 1 := fun x hx => hl x (List.mem_cons_of_mem _ hx)
    rw [List.enumFrom_cons, List.foldl_cons]
    have hstep : acc ||| (b <<< k) = acc + b * 2 ^ k := by
      rcases Nat.le_one_iff_eq_zero_or_eq_one.mp hb with hb0 | hb1
      · subst hb0; simp [Nat.zero_shiftLeft]
      · subst hb1
        rw [Nat.shiftLeft_eq, one_mul, lor_two_pow_of_lt hacc]
    rw [hstep]
    have hble : b * 2 ^ k ≤ 1 * 2 ^ k := Nat.mul_le_mul_right _ hb
    have hacc' : acc + b * 2 ^ k < 2 ^ (k + 1) := by
      rw [pow_succ]; omega
    rw [ih hbs (k + 1) _ hacc']
    simp only [bitsValueLE, pow_succ]
    ring

lemma groupNumber_eq_bitsValueLE (l : List ℕ) (hl : ∀ b ∈ l, b ≤ 1) :
    groupNumber l = bitsValueLE l := by
  have h := foldl_lor_enumFrom l hl 0 0 (by norm_num)
  simpa [groupNumber, List.enum] using h

lemma range_map_slice_eq_chunksOf {α : Type} (g : ℕ) (hg : 0 < g) :
    ∀ (k : ℕ) (l : List α), l.length = k * g →
      (List.range k).map (fun i => (l.drop (i * g)).take g) =
        chunksOf g l := by
  intro k
  induction k with
  | zero =>
    intro l hl
    have : l = [] := List.eq_nil_of_length_eq_zero (by simpa using hl)
    subst this
    simp [chunksOf]
  | succ k ih =>
    intro l hl
    have hlen : l.length = k * g + g := by rw [hl]; ring
    have hne : l ≠ [] := by
      intro h
      rw [h] at hlen
      simp at hlen
      omega
    obtain ⟨a, t, rfl⟩ := List.exists_cons_of_ne_nil hne
    rw [List.range_succ_eq_map, List.map_cons, List.map_map]
    have harm : chunksOf g (a :: t) =
        (a :: t).take g :: chunksOf g ((a :: t).drop g) := by
      rw [chunksOf, if_neg (by omega)]
    rw [harm]
    congr 1
    · simp
    · have hcomp : ((fun i => ((a :: t).drop (i * g)).take g) ∘ Nat.succ) =
          fun i => (((a :: t).drop g).drop (i * g)).take g := by
        funext i
        simp only [Function.comp_apply, List.drop_drop]
        rw [Nat.succ_mul, Nat.add_comm, Nat.mul_comm]
      rw [hcomp]
      exact ih ((a :: t).drop g) (by simp [hlen])

/-- The `Except.ok` branch of `decode_bitstream` (positive group size,
divisible length, non-hexadecimal) equals the chunk-wise positional
decoding described by the spec. -/
lemma decode_eq_chunks (bitstream : List ℕ) (group_by : ℕ) (MSB_first : Bool)
    (hg : 0 < group_by) (hbits : ∀ b ∈ bitstream, b = 0 ∨ b = 1)
    (hlen : group_by ∣ bitstream.length) :
    decode_bitstream bitstream group_by MSB_first false =
      Except.ok ((chunksOf group_by bitstream).map fun c =>
        Sum.inl (chunkValue MSB_first c)) := by
  obtain ⟨k, hk⟩ := hlen
  unfold decode_bitstream
  rw [if_neg (by omega), if_neg (by simp [hk, Nat.mul_mod_right])]
  have hdiv : bitstream.length / group_by = k := by
    rw [hk]
    exact Nat.mul_div_cancel_left k hg
  have hchunks := range_map_slice_eq_chunksOf group_by hg k bitstream
    (by rw [hk]; ring)
  dsimp only
  rw [hdiv, ← hchunks, List.map_map]
  congr 1
  apply List.map_congr_left
  intro i _
  simp only [Function.comp_apply, Bool.false_eq_true, if_false,
    chunkValue]
  congr 1
  refine groupNumber_eq_bitsValueLE _ (fun b hb => ?_)
  have hb2 : b ∈ (bitstream.drop (i * group_by)).take group_by := by
    cases MSB_first with
    | false => simpa using hb
    | true => simpa using hb
  have hmem := List.mem_of_mem_drop (List.mem_of_mem_take hb2)
  rcases hbits b hmem with h | h <;> omega

lemma chunksOf_singleton {α : Type} (g : ℕ) (hg : 0 < g) (l : List α)
    (hl : l.length = g) : chunksOf g l = [l] := by
  cases l with
  | nil => simp at hl; omega
  | cons a t =>
    rw [chunksOf, if_neg (by omega), ← hl, List.take_length,
      List.drop_length]
    simp [chunksOf]

lemma chunkValue_lt (MSB_first : Bool) (c : List ℕ) (hc : ∀ b ∈ c, b ≤ 1) :
    chunkValue MSB_first c < 2 ^ c.length := by
  unfold chunkValue
  cases MSB_first with
  | false => exact bitsValueLE_lt c hc
  | true =>
    simpa using bitsValueLE_lt c.reverse (by simpa using hc)

lemma bitsValueLE_expand (g : ℕ) :
    ∀ n, n < 2 ^ g →
      bitsValueLE ((List.range g).map fun j => n / 2 ^ j % 2) = n := by
  induction g with
  | zero =>
    intro n hn
    simp only [pow_zero, Nat.lt_one_iff] at hn
    simp [hn, bitsValueLE]
  | succ g ih =>
    intro n hn
    rw [List.range_succ_eq_map, List.map_cons, List.map_map]
    have hcomp : ((fun j => n / 2 ^ j % 2) ∘ Nat.succ) =
        fun j => (n / 2) / 2 ^ j % 2 := by
      funext j
      simp only [Function.comp_apply]
      rw [Nat.div_div_eq_div_mul]
      congr 2
      rw [pow_succ]
      ring
    rw [hcomp]
    simp only [bitsValueLE, pow_zero, Nat.div_one]
    rw [ih (n / 2) (by rw [pow_succ] at hn; omega)]
    omega

lemma expand_of_bitsValueLE :
    ∀ l : List ℕ, (∀ b ∈ l, b ≤ 1) →
      (List.range l.length).map (fun j => bitsValueLE l / 2 ^ j % 2) = l := by
  intro l
  induction l with
  | nil => intro _; simp
  | cons b bs ih =>
    intro hl
    have hb : b ≤ 1 := hl b (List.mem_cons_self b _)
    have hbs : ∀ x ∈ bs, x ≤ 1 := fun x hx => hl x (List.mem_cons_of_mem _ hx)
    have hval : bitsValueLE (b :: bs) = b + 2 * bitsValueLE bs := rfl
    have hmod : bitsValueLE (b :: bs) % 2 = b := by rw [hval]; omega
    have hdiv : bitsValueLE (b :: bs) / 2 = bitsValueLE bs := by
      rw [hval]; omega
    have hcomp : ((fun j => bitsValueLE (b :: bs) / 2 ^ j % 2) ∘ Nat.succ) =
        fun j => bitsValueLE bs / 2 ^ j % 2 := by
      funext j
      simp only [Function.comp_apply]
      rw [show (2 : ℕ) ^ (j + 1) = 2 * 2 ^ j by rw [pow_succ]; ring,
        ← Nat.div_div_eq_div_mul, hdiv]
    rw [List.length_cons, List.range_succ_eq_map, List.map_cons,
      List.map_map, hcomp, ih hbs]
    simp only [pow_zero, Nat.div_one, hmod]

/-! ### Claims about `decode_bitstream` -/

/-- C3: for a 0/1 bit sequence whose length is a positive multiple of
`group_by`, `decode_bitstream` partitions it into consecutive chunks of
`group_by` bits in order and maps each chunk to `OR over j of (bit_j << j)`
after reversing the chunk when `MSB_first`; the concrete scenario gives
`0x80` MSB-first and `0x01` otherwise. -/
theorem decode_partitions_into_chunk_values (bitstream : List ℕ)
    (group_by : ℕ) (MSB_first : Bool)
    (hbits : ∀ b ∈ bitstream, b = 0 ∨ b = 1)
    (hpos : 0 < bitstream.length) (hdvd : group_by ∣ bitstream.length) :
    decode_bitstream bitstream group_by MSB_first false =
      Except.ok ((chunksOf group_by bitstream).map fun c =>
        Sum.inl (chunkValue MSB_first c)) ∧
    decode_bitstream [1, 0, 0, 0, 0, 0, 0, 0] 8 true false =
      Except.ok [Sum.inl 0x80] ∧
    decode_bitstream [1, 0, 0, 0, 0, 0, 0, 0] 8 false false =
      Except.ok [Sum.inl 0x01] := by
  have hg : 0 < group_by := by
    rcases Nat.eq_zero_or_pos group_by with h0 | h
    · subst h0
      rw [Nat.zero_dvd.mp hdvd] at hpos
      omega
    · exact h
  exact ⟨decode_eq_chunks bitstream group_by MSB_first hg hbits hdvd,
    rfl, rfl⟩

/-- C3 witness: the concrete scenario, also checked against the spec-side
chunk decomposition. -/
theorem decode_partitions_into_chunk_values_witness :
    decode_bitstream [1, 0, 0, 0, 0, 0, 0, 0] 8 true false =
      Except.ok ((chunksOf 8 [1, 0, 0, 0, 0, 0, 0, 0]).map fun c =>
        Sum.inl (chunkValue true c)) ∧
    decode_bitstream [1, 0, 0, 0, 0, 0, 0, 0] 8 true false =
      Except.ok [Sum.inl 0x80] := by
  have h := decode_partitions_into_chunk_values [1, 0, 0, 0, 0, 0, 0, 0] 8
    true (by decide) (by decide) (by decide)
  exact ⟨h.1, h.2.1⟩

/-- C4 counterexample: with group size 0 the code raises Python's
`ZeroDivisionError`, not the indivisible-stream error, even though
`len(bits) % group_size = 1 % 0 ≠ 0`; so the claim fails for group size 0
(it neither raises the indivisible-stream error nor returns normally). -/
theorem decode_indivisible_counterexample :
    decode_bitstream [1] 0 true true =
      Except.error "integer division or modulo by zero" ∧
    "integer division or modulo by zero" ≠
      "Cannot group bits in the stream without leaving any bit out!" ∧
    (1 : ℕ) % 0 ≠ 0 :=
  ⟨rfl, by decide, by decide⟩

/-- C4 (amended): for every bit sequence and every *positive* group size,
`decode_bitstream` raises the indivisible-stream error exactly when
`len(bits) % group_size ≠ 0`, with no partial output; when the length
divides evenly it returns exactly `len(bits) / group_size` values. -/
theorem decode_indivisible_error_iff (bitstream : List ℕ) (group_by : ℕ)
    (MSB_first hexadecimal : Bool) (hg : 0 < group_by) :
    (decode_bitstream bitstream group_by MSB_first hexadecimal =
        Except.error
          "Cannot group bits in the stream without leaving any bit out!" ↔
      bitstream.length % group_by ≠ 0) ∧
    (bitstream.length % group_by = 0 →
      ∃ out, decode_bitstream bitstream group_by MSB_first hexadecimal =
        Except.ok out ∧ out.length = bitstream.length / group_by) := by
  unfold decode_bitstream
  rw [if_neg (by omega)]
  by_cases h : bitstream.length % group_by = 0
  · rw [if_neg (by omega)]
    refine ⟨⟨fun hc => Except.noConfusion hc, fun hc => absurd h hc⟩,
      fun _ => ⟨_, rfl, ?_⟩⟩
    simp
  · rw [if_pos h]
    exact ⟨⟨fun _ => h, fun _ => rfl⟩, fun hc => absurd hc h⟩

/-- C4 (amended) witness: 3 bits do not divide into groups of 2 (error);
2 bits divide into exactly one group of 2. -/
theorem decode_indivisible_error_iff_witness :
    decode_bitstream [1, 0, 1] 2 true true =
      Except.error
        "Cannot group bits in the stream without leaving any bit out!" ∧
    ∃ out, decode_bitstream [1, 0] 2 true true = Except.ok out ∧
      out.length = 1 := by
  have h1 := decode_indivisible_error_iff [1, 0, 1] 2 true true (by decide)
  have h2 := decode_indivisible_error_iff [1, 0] 2 true true (by decide)
  exact ⟨h1.1.mpr (by decide), by simpa using h2.2 (by decide)⟩

/-- C10: every value decoded from a 0/1 stream whose length is a multiple
of a positive `group_by` (with `hexadecimal = false`) is an unsigned
integer in `[0, 2 ^ group_by)`, for both bit orders. -/
theorem decode_values_in_range (bitstream : List ℕ) (group_by : ℕ)
    (MSB_first : Bool) (hg : 0 < group_by)
    (hbits : ∀ b ∈ bitstream, b = 0 ∨ b = 1)
    (hdvd : group_by ∣ bitstream.length) :
    ∀ out, decode_bitstream bitstream group_by MSB_first false =
        Except.ok out →
      ∀ x ∈ out, ∃ n, x = Sum.inl n ∧ n < 2 ^ group_by := by
  intro out hout x hx
  rw [decode_eq_chunks bitstream group_by MSB_first hg hbits hdvd] at hout
  cases hout
  obtain ⟨k, hk⟩ := hdvd
  rw [← range_map_slice_eq_chunksOf group_by hg k bitstream
    (by rw [hk]; ring), List.map_map] at hx
  obtain ⟨i, _, hxi⟩ := List.mem_map.mp hx
  refine ⟨chunkValue MSB_first
    ((bitstream.drop (i * group_by)).take group_by), hxi.symm, ?_⟩
  have hle : ((bitstream.drop (i * group_by)).take group_by).length ≤
      group_by := by
    rw [List.length_take]
    omega
  have hlt := chunkValue_lt MSB_first
    ((bitstream.drop (i * group_by)).take group_by) (fun b hb => by
      rcases hbits b (List.mem_of_mem_drop (List.mem_of_mem_take hb))
        with h | h <;> omega)
  exact hlt.trans_le (Nat.pow_le_pow_right (by norm_num) hle)

/-- C10 witness: decoding `[1,1,0,1]` in groups of 2 MSB-first contains
`Sum.inl 3` with `3 < 2 ^ 2`. -/
theorem decode_values_in_range_witness :
    ∃ n, (Sum.inl 3 : ℕ ⊕ String) = Sum.inl n ∧ n < 2 ^ 2 :=
  decode_values_in_range [1, 1, 0, 1] 2 true (by decide) (by decide)
    (by decide) [Sum.inl 3, Sum.inl 1] rfl (Sum.inl 3)
    (List.mem_cons_self _ _)

/-- C7: decoding a single well-formed chunk is invertible — re-expanding
the decoded integer back into `group_by` bits (MSB-first when `MSB_first`,
LSB-first otherwise) reproduces the chunk, and every `n < 2 ^ group_by` is
the decoding of its own expansion, so decoding single chunks is a
bijection onto `[0, 2 ^ group_by)`. -/
theorem decode_single_chunk_bijection (group_by : ℕ) (MSB_first : Bool)
    (hg : 0 < group_by) :
    (∀ chunk : List ℕ, chunk.length = group_by →
      (∀ b ∈ chunk, b = 0 ∨ b = 1) →
      decode_bitstream chunk group_by MSB_first false =
        Except.ok [Sum.inl (chunkValue MSB_first chunk)] ∧
      chunkValue MSB_first chunk < 2 ^ group_by ∧
      expandBits (chunkValue MSB_first chunk) group_by MSB_first = chunk) ∧
    (∀ n, n < 2 ^ group_by →
      decode_bitstream (expandBits n group_by MSB_first) group_by MSB_first
        false = Except.ok [Sum.inl n]) := by
  constructor
  · intro chunk hlen hbits
    have hb1 : ∀ b ∈ chunk, b ≤ 1 := fun b hb => by
      rcases hbits b hb with h | h <;> omega
    refine ⟨?_, ?_, ?_⟩
    · rw [decode_eq_chunks chunk group_by MSB_first hg hbits
        ⟨1, by omega⟩, chunksOf_singleton group_by hg chunk hlen]
      rfl
    · rw [← hlen]
      exact chunkValue_lt MSB_first chunk hb1
    · cases MSB_first with
      | false =>
        simp only [expandBits, chunkValue, Bool.false_eq_true, if_false]
        rw [← hlen]
        exact expand_of_bitsValueLE chunk hb1
      | true =>
        simp only [expandBits, chunkValue, if_true]
        have hrl : chunk.reverse.length = group_by := by
          rw [List.length_reverse, hlen]
        have h := expand_of_bitsValueLE chunk.reverse
          (fun b hb => hb1 b (List.mem_reverse.mp hb))
        rw [hrl] at h
        rw [h, List.reverse_reverse]
  · intro n hn
    have hexp0 : ∀ b ∈ (List.range group_by).map fun j => n / 2 ^ j % 2,
        b = 0 ∨ b = 1 := by
      intro b hb
      obtain ⟨j, _, hj⟩ := List.mem_map.mp hb
      omega
    have hlen0 : ((List.range group_by).map fun j => n / 2 ^ j % 2).length =
        group_by := by
      rw [List.length_map, List.length_range]
    cases MSB_first with
    | false =>
      have hlen : (expandBits n group_by false).length = group_by := by
        simp only [expandBits, Bool.false_eq_true, if_false]
        exact hlen0
      have hbits : ∀ b ∈ expandBits n group_by false, b = 0 ∨ b = 1 := by
        simpa [expandBits] using hexp0
      rw [decode_eq_chunks _ group_by false hg hbits ⟨1, by omega⟩,
        chunksOf_singleton group_by hg _ hlen]
      have hval : chunkValue false (expandBits n group_by false) = n := by
        simp only [chunkValue, expandBits, Bool.false_eq_true, if_false]
        exact bitsValueLE_expand group_by n hn
      rw [List.map_singleton, hval]
    | true =>
      have hlen : (expandBits n group_by true).length = group_by := by
        simp only [expandBits, if_true, List.length_reverse]
        exact hlen0
      have hbits : ∀ b ∈ expandBits n group_by true, b = 0 ∨ b = 1 := by
        intro b hb
        simp only [expandBits, if_true, List.mem_reverse] at hb
        exact hexp0 b hb
      rw [decode_eq_chunks _ group_by true hg hbits ⟨1, by omega⟩,
        chunksOf_singleton group_by hg _ hlen]
      have hval : chunkValue true (expandBits n group_by true) = n := by
        simp only [chunkValue, expandBits, if_true, List.reverse_reverse]
        exact bitsValueLE_expand group_by n hn
      rw [List.map_singleton, hval]

/-- C7 witness: 0x80 expands MSB-first to `[1,0,0,0,0,0,0,0]`, which
decodes back to 0x80. -/
theorem decode_single_chunk_bijection_witness :
    decode_bitstream (expandBits 0x80 8 true) 8 true false =
      Except.ok [Sum.inl 0x80] :=
  (decode_single_chunk_bijection 8 true (by decide)).2 0x80 (by decide)

end SpiDecoder
